import Mathlib

/-!
Verification of the ledger core of `src/blockchain.js` (`Blockchain` class).

The JavaScript code is shallowly embedded: the chain is a `List` of `Block`
records plus an `Int` height counter (the source initializes `height = -1`
before the genesis block exists), promise rejection is modelled with
`Except`, and the SHA-256 digest together with `bitcoinMessage.verify` are
opaque external primitives passed in as function parameters.

JavaScript number-to-string/parsing idioms used by the source
(`new Date().getTime().toString().slice(0, -3)` and
`parseInt(message.split(":")[1])`) are modelled exactly: `toString` is
`Nat.repr`, `slice(0, -3)` drops the last three characters, `split` and
`parseInt` are given executable models below.
-/

/-- Little-endian decimal digits of `n`, computed with explicit fuel so that
the kernel can evaluate it.  `decDigitsF fuel n` is correct when `n ≤ fuel`. -/
def decDigitsF : Nat → Nat → List Nat
  | 0, _ => []
  | _ + 1, 0 => []
  | f + 1, n + 1 => ((n + 1) % 10) :: decDigitsF f ((n + 1) / 10)

/-- Little-endian decimal digits of `n` (`[]` for `0`). -/
def decDigits (n : Nat) : List Nat := decDigitsF n n

theorem decDigitsF_zero (f : Nat) : decDigitsF f 0 = [] := by
  cases f <;> rfl

theorem decDigitsF_congr (f₁ : Nat) :
    ∀ f₂ n : Nat, n ≤ f₁ → n ≤ f₂ → decDigitsF f₁ n = decDigitsF f₂ n := by
  induction f₁ with
  | zero =>
    intro f₂ n h1 _
    have hn : n = 0 := Nat.le_zero.mp h1
    subst hn
    rw [decDigitsF_zero, decDigitsF_zero]
  | succ f ih =>
    intro f₂ n h1 h2
    cases n with
    | zero => rw [decDigitsF_zero, decDigitsF_zero]
    | succ m =>
      cases f₂ with
      | zero => omega
      | succ g =>
        show ((m + 1) % 10) :: decDigitsF f ((m + 1) / 10)
            = ((m + 1) % 10) :: decDigitsF g ((m + 1) / 10)
        have hdiv : (m + 1) / 10 < m + 1 := Nat.div_lt_self (Nat.succ_pos m) (by norm_num)
        have hf : (m + 1) / 10 ≤ f := by omega
        have hg : (m + 1) / 10 ≤ g := by omega
        rw [ih g ((m + 1) / 10) hf hg]

theorem decDigits_pos {n : Nat} (h : 0 < n) :
    decDigits n = n % 10 :: decDigits (n / 10) := by
  cases n with
  | zero => omega
  | succ m =>
    show ((m + 1) % 10) :: decDigitsF m ((m + 1) / 10)
        = (m + 1) % 10 :: decDigits ((m + 1) / 10)
    have hdiv : (m + 1) / 10 < m + 1 := Nat.div_lt_self (Nat.succ_pos m) (by norm_num)
    rw [decDigitsF_congr m ((m + 1) / 10) ((m + 1) / 10) (by omega) (Nat.le_refl _)]
    rfl

theorem decDigits_lt_ten (n : Nat) : ∀ d ∈ decDigits n, d < 10 := by
  induction n using Nat.strong_induction_on with
  | _ n ih =>
    rcases Nat.eq_zero_or_pos n with hn | hn
    · subst hn; intro d hd; simp [decDigits, decDigitsF] at hd
    · rw [decDigits_pos hn]
      intro d hd
      rcases List.mem_cons.mp hd with h | h
      · subst h; exact Nat.mod_lt _ (by norm_num)
      · exact ih (n / 10) (Nat.div_lt_self hn (by norm_num)) d h

theorem decDigits_ne_nil {n : Nat} (h : 0 < n) : decDigits n ≠ [] := by
  rw [decDigits_pos h]; simp

theorem foldr_decDigits (n : Nat) :
    (decDigits n).foldr (fun d a => a * 10 + d) 0 = n := by
  induction n using Nat.strong_induction_on with
  | _ n ih =>
    rcases Nat.eq_zero_or_pos n with hn | hn
    · subst hn; rfl
    · rw [decDigits_pos hn, List.foldr_cons,
        ih (n / 10) (Nat.div_lt_self hn (by norm_num))]
      omega

/-- Big-endian character form of `n` in decimal, `['0']` for `0`.  This is
what `Nat.repr` (and hence the model of JavaScript `toString`) produces. -/
def msfChars (n : Nat) : List Char :=
  if n = 0 then ['0'] else ((decDigits n).map Nat.digitChar).reverse

theorem toDigitsCore_eq_msfChars (f : Nat) :
    ∀ (n : Nat) (ds : List Char), n < 10 ^ f → 0 < f →
      Nat.toDigitsCore 10 f n ds = msfChars n ++ ds := by
  induction f with
  | zero => intro n ds _ hf; omega
  | succ f ih =>
    intro n ds hlt _
    show (if n / 10 = 0 then (n % 10).digitChar :: ds
        else Nat.toDigitsCore 10 f (n / 10) ((n % 10).digitChar :: ds)) = msfChars n ++ ds
    rcases Nat.eq_zero_or_pos (n / 10) with hdiv | hdiv
    · rw [if_pos hdiv]
      rcases Nat.eq_zero_or_pos n with hn | hn
      · subst hn; rfl
      · have hne : n ≠ 0 := by omega
        have hds : decDigits n = [n % 10] := by
          rw [decDigits_pos hn, hdiv]; rfl
        simp [msfChars, hne, hds]
    · have hdivne : n / 10 ≠ 0 := by omega
      rw [if_neg hdivne]
      have hn : 0 < n := by
        by_contra h
        have : n = 0 := by omega
        subst this
        simp at hdiv
      have hf : 0 < f := by
        by_contra hf0
        have : f = 0 := by omega
        subst this
        have : n < 10 := by simpa using hlt
        omega
      have hlt' : n / 10 < 10 ^ f := by
        rw [Nat.div_lt_iff_lt_mul (by norm_num : (0:Nat) < 10)]
        calc n < 10 ^ (f + 1) := hlt
        _ = 10 ^ f * 10 := by ring
      rw [ih (n / 10) ((n % 10).digitChar :: ds) hlt' hf]
      have hmsf : msfChars n
          = msfChars (n / 10) ++ [(n % 10).digitChar] := by
        have hne : n ≠ 0 := by omega
        simp only [msfChars, hne, hdivne, if_false]
        rw [decDigits_pos hn, List.map_cons, List.reverse_cons]
      rw [hmsf, List.append_assoc]
      rfl

theorem repr_eq_msfChars (n : Nat) : Nat.repr n = ⟨msfChars n⟩ := by
  show (Nat.toDigits 10 n).asString = _
  show (Nat.toDigitsCore 10 (n + 1) n []).asString = _
  have h1 : n < 10 ^ (n + 1) := by
    calc n < 10 ^ n := Nat.lt_pow_self (by norm_num) n
    _ ≤ 10 ^ (n + 1) := Nat.pow_le_pow_right (by norm_num) (Nat.le_succ n)
  rw [toDigitsCore_eq_msfChars (n + 1) n [] h1 (Nat.succ_pos n), List.append_nil]
  rfl

/-- Model of JavaScript `Number.prototype.toString()` on a whole number of
milliseconds: the decimal representation. -/
def jsToString (n : Nat) : String := Nat.repr n

/-- Model of JavaScript `String.prototype.slice(0, -3)`: drop the last three
characters (empty result when the string has at most three characters). -/
def jsSliceNeg3 (s : String) : String := ⟨s.data.dropLast.dropLast.dropLast⟩

theorem dropLast_reverse_eq {α : Type} (l : List α) :
    l.reverse.dropLast = l.tail.reverse := by
  cases l with
  | nil => rfl
  | cons a t => rw [List.reverse_cons, List.dropLast_concat]; rfl

theorem tail_map_eq {α β : Type} (f : α → β) (l : List α) :
    (l.map f).tail = l.tail.map f := by
  cases l <;> rfl

/-- Dropping the last three characters of the decimal representation of
`n ≥ 1000` yields the decimal representation of `n / 1000`: the JS idiom
`ms.toString().slice(0, -3)` computes whole seconds from milliseconds. -/
theorem jsSliceNeg3_jsToString {n : Nat} (h : 1000 ≤ n) :
    jsSliceNeg3 (jsToString n) = jsToString (n / 1000) := by
  have hn : n ≠ 0 := by omega
  have h10 : 0 < n / 10 := Nat.div_pos (by omega) (by norm_num)
  have h100 : 0 < n / 10 / 10 := by
    rw [Nat.div_div_eq_div_mul]
    exact Nat.div_pos (by omega) (by norm_num)
  have h1000 : 0 < n / 10 / 10 / 10 := by
    rw [Nat.div_div_eq_div_mul, Nat.div_div_eq_div_mul]
    exact Nat.div_pos (by omega) (by norm_num)
  show ⟨(jsToString n).data.dropLast.dropLast.dropLast⟩ = jsToString (n / 1000)
  rw [jsToString, jsToString, repr_eq_msfChars, repr_eq_msfChars]
  show String.mk (msfChars n).dropLast.dropLast.dropLast = String.mk (msfChars (n / 1000))
  have key : (msfChars n).dropLast.dropLast.dropLast = msfChars (n / 1000) := by
    simp only [msfChars, hn, if_false]
    rw [dropLast_reverse_eq, tail_map_eq]
    rw [dropLast_reverse_eq, tail_map_eq]
    rw [dropLast_reverse_eq, tail_map_eq]
    rw [decDigits_pos (by omega : 0 < n)]
    rw [List.tail_cons, decDigits_pos h10, List.tail_cons, decDigits_pos h100,
      List.tail_cons]
    have hdiv : n / 10 / 10 / 10 = n / 1000 := by
      rw [Nat.div_div_eq_div_mul, Nat.div_div_eq_div_mul]
    rw [hdiv] at h1000 ⊢
    rw [if_neg (by omega : ¬ n / 1000 = 0)]
  rw [key]

/-- Whitespace skipped by JavaScript `parseInt` before reading digits. -/
def jsIsSpace (c : Char) : Bool := c = ' ' || c = '\t' || c = '\n' || c = '\r'

/-- ASCII decimal digit test. -/
def isDigitChar (c : Char) : Bool := '0' ≤ c && c ≤ '9'

/-- Numeric value of an ASCII digit character. -/
def charDigitVal (c : Char) : Nat := c.toNat - 48

/-- Greedily read a leading run of decimal digits; `none` when there is no
digit at all (the `NaN` outcome of `parseInt`). -/
def parseLeadingDigits (l : List Char) : Option Nat :=
  let ds := l.takeWhile isDigitChar
  if ds.isEmpty then none
  else some (ds.foldl (fun a c => a * 10 + charDigitVal c) 0)

/-- Model of JavaScript `parseInt(x)` in base 10: skip leading whitespace,
accept an optional sign, read leading digits; `none` models `NaN`.  The
argument is an `Option` so that `parseInt(undefined)` (an out-of-range
index such as `message.split(":")[1]`) is also covered by the `none` case. -/
def jsParseIntChars : List Char → Option Int
  | [] => none
  | c :: rest =>
    if c = '-' then (parseLeadingDigits rest).map (fun m => -(m : Int))
    else if c = '+' then (parseLeadingDigits rest).map (fun m => (m : Int))
    else (parseLeadingDigits (c :: rest)).map (fun m => (m : Int))

def jsParseInt : Option String → Option Int
  | none => none
  | some str => jsParseIntChars (str.data.dropWhile jsIsSpace)

/-- Model of JavaScript `String.prototype.split(sep)` for a one-character
separator, at the character-list level. -/
def splitChar (sep : Char) : List Char → List (List Char)
  | [] => [[]]
  | c :: rest =>
    match splitChar sep rest with
    | [] => if c = sep then [[], []] else [[c]]
    | g :: gs => if c = sep then [] :: g :: gs else (c :: g) :: gs

theorem digitChar_props :
    ∀ d, d < 10 → jsIsSpace (Nat.digitChar d) = false ∧
      Nat.digitChar d ≠ '-' ∧ Nat.digitChar d ≠ '+' ∧
      isDigitChar (Nat.digitChar d) = true ∧
      charDigitVal (Nat.digitChar d) = d := by decide

theorem takeWhile_all {p : Char → Bool} :
    ∀ l : List Char, (∀ c ∈ l, p c = true) → l.takeWhile p = l := by
  intro l h
  induction l with
  | nil => rfl
  | cons a t ih =>
    rw [List.takeWhile_cons, h a (List.mem_cons_self a t), if_pos rfl,
      ih fun c hc => h c (List.mem_cons_of_mem a hc)]

theorem foldr_digitChar_congr :
    ∀ L : List Nat, (∀ d ∈ L, d < 10) →
      L.foldr (fun d a => a * 10 + charDigitVal (Nat.digitChar d)) 0
        = L.foldr (fun d a => a * 10 + d) 0 := by
  intro L h
  induction L with
  | nil => rfl
  | cons d t ih =>
    rw [List.foldr_cons, List.foldr_cons,
      ih fun x hx => h x (List.mem_cons_of_mem d hx),
      (digitChar_props d (h d (List.mem_cons_self d t))).2.2.2.2]

theorem mem_msfChars_digit {n : Nat} (c : Char) (hc : c ∈ msfChars n) :
    ∃ d, d < 10 ∧ c = Nat.digitChar d := by
  by_cases hn : n = 0
  · subst hn
    rw [show msfChars 0 = ['0'] from rfl] at hc
    exact ⟨0, by norm_num, List.mem_singleton.mp hc⟩
  · simp only [msfChars, hn, if_false, List.mem_reverse, List.mem_map] at hc
    obtain ⟨d, hd, hcd⟩ := hc
    exact ⟨d, decDigits_lt_ten n d hd, hcd.symm⟩

theorem msfChars_ne_nil (n : Nat) : msfChars n ≠ [] := by
  by_cases hn : n = 0
  · subst hn; simp [msfChars]
  · have h : 0 < n := by omega
    simp only [msfChars, hn, if_false]
    intro hrev
    exact decDigits_ne_nil h (by simpa using congrArg List.reverse (by simpa using hrev))

/-- `parseInt` applied to the decimal representation of `n` recovers `n`:
the round trip used by `submitStar` to read the current time back out of
the sliced millisecond string. -/
theorem jsParseInt_jsToString (n : Nat) :
    jsParseInt (some (jsToString n)) = some (n : Int) := by
  have hdata : (jsToString n).data = msfChars n := by
    rw [jsToString, repr_eq_msfChars]
  have hall : ∀ c ∈ msfChars n, isDigitChar c = true := by
    intro c hc
    obtain ⟨d, hd, rfl⟩ := mem_msfChars_digit c hc
    exact (digitChar_props d hd).2.2.2.1
  obtain ⟨c, cs, hcons⟩ := List.exists_cons_of_ne_nil (msfChars_ne_nil n)
  obtain ⟨d0, hd0, hcd0⟩ := mem_msfChars_digit c (by rw [hcons]; exact List.mem_cons_self _ _)
  have hdrop : (msfChars n).dropWhile jsIsSpace = c :: cs := by
    rw [hcons, List.dropWhile_cons, hcd0, (digitChar_props d0 hd0).1,
      if_neg Bool.false_ne_true]
  show jsParseInt (some (jsToString n)) = some (n : Int)
  rw [jsParseInt]
  rw [hdata, hdrop]
  rw [jsParseIntChars]
  rw [if_neg (by rw [hcd0]; exact (digitChar_props d0 hd0).2.1),
    if_neg (by rw [hcd0]; exact (digitChar_props d0 hd0).2.2.1)]
  rw [← hcons]
  have htake : (msfChars n).takeWhile isDigitChar = msfChars n := takeWhile_all _ hall
  rw [parseLeadingDigits, htake]
  have hne : (msfChars n).isEmpty = false := by
    rw [hcons]; rfl
  simp only [hne, Bool.false_eq_true, if_false]
  have hfold : (msfChars n).foldl (fun a c => a * 10 + charDigitVal c) 0 = n := by
    by_cases hn : n = 0
    · subst hn; rfl
    · simp only [msfChars, hn, if_false]
      rw [List.foldl_reverse, List.foldr_map]
      rw [foldr_digitChar_congr (decDigits n) (decDigits_lt_ten n)]
      exact foldr_decDigits n
  rw [hfold]
  rfl

/-- `parseInt` of the sliced millisecond clock string: the `currentTime`
computation in `submitStar` yields the current whole-second count. -/
theorem currentTime_eq {nowMs : Nat} (h : 1000 ≤ nowMs) :
    jsParseInt (some (jsSliceNeg3 (jsToString nowMs))) = some ((nowMs / 1000 : Nat) : Int) := by
  rw [jsSliceNeg3_jsToString h, jsParseInt_jsToString]

/-- A sealed block as stored in `this.chain`.  `previousBlockHash` is an
`Option` because the genesis block keeps the `null` sentinel.  The `body`
is the opaque encoded payload.  (The `Block` class lives in `block.js`,
which is not part of this repository snapshot; its field layout here is
modelled from the spec data model.) -/
structure Block where
  height : Nat
  time : String
  previousBlockHash : Option String
  body : String
  hash : String
deriving DecidableEq

/-- Modelled from the spec: the encoded form of a block fed to the digest
contains exactly `height`, `timestamp`, `previousHash`, `body`, with the
stored `hash` excluded (spec section 6; `block.js` is absent from src). -/
structure HashInput where
  height : Nat
  time : String
  previousBlockHash : Option String
  body : String
deriving DecidableEq

def hashInputOf (b : Block) : HashInput :=
  ⟨b.height, b.time, b.previousBlockHash, b.body⟩

/-- The failure taxonomy of the spec.  `malformedChallenge` is named by the
spec error taxonomy; whether any code path raises it is settled by the
theorems below. -/
inductive LedgerError where
  | chainCorrupt
  | missingPrevHash
  | elapsedTime
  | signatureInvalid
  | malformedChallenge
  | notFound (hash : String)
deriving DecidableEq

/-- The mutable state of the `Blockchain` class: the `chain` array and the
`height` counter (`Int`, because the constructor sets it to `-1`). -/
structure Blockchain where
  chain : List Block
  height : Int
deriving DecidableEq

/-- State set up by the constructor before `initializeChain` runs. -/
def emptyState : Blockchain := ⟨[], -1⟩

/-- Encoded body of the genesis block (opaque payload). -/
def genesisBody : String := "Genesis Block"

/-- Encoded body of a star block (opaque encoding of the star and address
pair passed to the `Block` constructor by `submitStar`). -/
def starBody (address star : String) : String :=
  "star=" ++ star ++ "&address=" ++ address

/-- Tamper violation message pushed by `validateChain`. -/
def tamperMsg (h : String) : String := "Block " ++ h ++ " was tampered."

/-- Linkage violation message pushed by `validateChain` (source text has a
possessive apostrophe, omitted here). -/
def linkMsg (h : String) : String :=
  "Previous block hash doesnt match with " ++ h ++ " block previous hash property."

/-- The loop body of `validateChain`: walk the chain carrying the previous
block hash (starting from `null`), pushing a tamper message when the
recomputed digest disagrees with the stored `hash` and a linkage message
when `previousBlockHash` disagrees with the tracked value.  It never stops
early. -/
def validateFrom (digest : HashInput → String) (prevHash : Option String) :
    List Block → List String
  | [] => []
  | b :: rest =>
    (if digest (hashInputOf b) ≠ b.hash then [tamperMsg b.hash] else []) ++
      ((if b.previousBlockHash ≠ prevHash then [linkMsg b.hash] else []) ++
        validateFrom digest (some b.hash) rest)

/-- `validateChain()`: full-chain violation report. -/
def validateChain (digest : HashInput → String) (st : Blockchain) : List String :=
  validateFrom digest none st.chain

/-- JavaScript array indexing `arr[i]` with a possibly negative index:
out-of-range reads give `undefined`, modelled as `none`. -/
def getAtInt (l : List Block) (i : Int) : Option Block :=
  if i < 0 then none else l.get? i.toNat

/-- The `self.chain[self.height - 1]?.hash` lookup of `_addBlock` together
with the `if (!prevHash) throw` falsiness test (an absent element or an
empty-string hash both fail), run only on the non-genesis path. -/
def prevHashResult (st : Blockchain) : Except LedgerError (Option String) :=
  if st.height ≠ -1 then
    match getAtInt st.chain (st.height - 1) with
    | none => .error .missingPrevHash
    | some pb => if pb.hash = "" then .error .missingPrevHash else .ok (some pb.hash)
  else .ok none

/-- `_addBlock(block)`: validate the whole chain, refuse on any violation,
link, seal and push the new block, update the height counter.  The result
carries the post-call state (unchanged on every failure path).  Only the
`body` of the argument block survives into the stored block, so the
function takes the body directly. -/
def _addBlock (digest : HashInput → String) (st : Blockchain) (body : String)
    (nowMs : Nat) : Except LedgerError Block × Blockchain :=
  if (validateChain digest st).length ≠ 0 then (.error .chainCorrupt, st)
  else
    match prevHashResult st with
    | .error e => (.error e, st)
    | .ok prev =>
      let time := jsSliceNeg3 (jsToString nowMs)
      let b : Block :=
        ⟨st.chain.length, time, prev, body, digest ⟨st.chain.length, time, prev, body⟩⟩
      (.ok b, ⟨st.chain ++ [b], (st.chain.length : Int) + 1⟩)

/-- The constructor: start from `chain = []`, `height = -1` and run
`initializeChain`, which appends the genesis block via `_addBlock`. -/
def mkBlockchain (digest : HashInput → String) (nowMs : Nat) : Blockchain :=
  (_addBlock digest emptyState genesisBody nowMs).2

/-- `requestMessageOwnershipVerification(address)`. -/
def requestMessageOwnershipVerification (address : String) (nowMs : Nat) : String :=
  address ++ ":" ++ jsSliceNeg3 (jsToString nowMs) ++ ":starRegistry"

/-- `parseInt(message.split(":")[1])` — the embedded challenge timestamp;
`none` models the `NaN` outcome. -/
def parseMessageTime (message : String) : Option Int :=
  jsParseInt (((splitChar ':' message.data).map (fun l => String.mk l)).get? 1)

/-- The five-minute constant of `submitStar` (in seconds). -/
def fiveMinutes : Int := 5 * 60

/-- The `elapsedTime > fiveMinutes` guard of `submitStar`.  When either
side of `currentTime - msgTime` is `NaN` the comparison is false, exactly
as in JavaScript. -/
def elapsedMoreThan5Min (message : String) (nowMs : Nat) : Bool :=
  match jsParseInt (some (jsSliceNeg3 (jsToString nowMs))), parseMessageTime message with
  | some currentTime, some msgTime => decide (fiveMinutes < currentTime - msgTime)
  | _, _ => false

/-- `submitStar(address, message, signature, star)`: elapsed-time guard,
then signature verification against the external primitive, then
`_addBlock` with the star payload (whose failures propagate unchanged). -/
def submitStar (digest : HashInput → String)
    (verify : String → String → String → Bool) (st : Blockchain)
    (address message signature star : String) (nowMs : Nat) :
    Except LedgerError Block × Blockchain :=
  if elapsedMoreThan5Min message nowMs then (.error .elapsedTime, st)
  else if !(verify message address signature) then (.error .signatureInvalid, st)
  else _addBlock digest st (starBody address star) nowMs

/-- `getBlockByHash(hash)`: linear scan; a miss rejects the promise.  (On a
hit the source also calls `reject`, but a promise settles only once, so
the `resolve` wins.) -/
def getBlockByHash (st : Blockchain) (hash : String) : Except LedgerError Block :=
  match st.chain.find? (fun b => b.hash == hash) with
  | some b => .ok b
  | none => .error (.notFound hash)

/-- `getBlockByHeight(height)`: linear scan by the `height` field; a miss
resolves with `null`, never rejecting. -/
def getBlockByHeight (st : Blockchain) (height : Int) : Option Block :=
  st.chain.find? (fun b => (b.height : Int) == height)

/-- `getChainHeight()`. -/
def getChainHeight (st : Blockchain) : Int := st.height

/-- States reachable from a freshly constructed ledger by any sequence of
public operations (the read operations do not change state; `submitStar`
is the only public mutator and is quantified over every behaviour of the
external signature verifier). -/
inductive Reachable (digest : HashInput → String) : Blockchain → Prop where
  | init (nowMs : Nat) : Reachable digest (mkBlockchain digest nowMs)
  | submit (st : Blockchain) (verify : String → String → String → Bool)
      (address message signature star : String) (nowMs : Nat) :
      Reachable digest st →
      Reachable digest (submitStar digest verify st address message signature star nowMs).2

/-- The structural chain invariant: nonempty chain, height counter equal to
the chain length, each stored block positioned at its own height, genesis
sentinel at index 0, and hash linkage everywhere. -/
def ChainInv (st : Blockchain) : Prop :=
  0 < st.chain.length ∧
  st.height = (st.chain.length : Int) ∧
  (∀ i b, st.chain.get? i = some b → b.height = i) ∧
  (∀ b, st.chain.get? 0 = some b → b.previousBlockHash = none) ∧
  (∀ i b b', st.chain.get? i = some b → st.chain.get? (i + 1) = some b' →
    b'.previousBlockHash = some b.hash)

theorem addBlock_of_invalid {digest : HashInput → String} {st : Blockchain}
    (body : String) (nowMs : Nat) (h : validateChain digest st ≠ []) :
    _addBlock digest st body nowMs = (.error .chainCorrupt, st) := by
  have hlen : (validateChain digest st).length ≠ 0 := by
    intro h0
    exact h (List.length_eq_zero.mp h0)
  rw [_addBlock, if_pos hlen]

theorem addBlock_error_state {digest : HashInput → String} {st : Blockchain}
    {body : String} {nowMs : Nat} {e : LedgerError}
    (h : (_addBlock digest st body nowMs).1 = .error e) :
    (_addBlock digest st body nowMs).2 = st := by
  rw [_addBlock] at h ⊢
  by_cases hv : (validateChain digest st).length ≠ 0
  · rw [if_pos hv]
  · rw [if_neg hv] at h ⊢
    cases hpr : prevHashResult st with
    | error e' => rw [hpr] at h
    | ok prev => rw [hpr] at h; simp at h

theorem addBlock_ok_state {digest : HashInput → String} {st : Blockchain}
    {body : String} {nowMs : Nat} {b : Block} {st' : Blockchain}
    (h : _addBlock digest st body nowMs = (.ok b, st')) :
    validateChain digest st = [] ∧
    (∃ prev, prevHashResult st = .ok prev ∧ b.previousBlockHash = prev) ∧
    b.height = st.chain.length ∧
    b.time = jsSliceNeg3 (jsToString nowMs) ∧
    b.body = body ∧
    b.hash = digest (hashInputOf b) ∧
    st'.chain = st.chain ++ [b] ∧
    st'.height = (st.chain.length : Int) + 1 := by
  rw [_addBlock] at h
  by_cases hv : (validateChain digest st).length ≠ 0
  · rw [if_pos hv] at h
    simp at h
  · rw [if_neg hv] at h
    have hval : validateChain digest st = [] := by
      rcases List.eq_nil_or_concat (validateChain digest st) with h0 | ⟨l, x, hlx⟩
      · exact h0
      · exfalso; apply hv; rw [hlx]; simp
    cases hpr : prevHashResult st with
    | error e' => rw [hpr] at h; simp at h
    | ok prev =>
      rw [hpr] at h
      simp only [Prod.mk.injEq, Except.ok.injEq] at h
      obtain ⟨hb, hst⟩ := h
      subst hb
      subst hst
      refine ⟨hval, ⟨prev, rfl, rfl⟩, rfl, rfl, rfl, rfl, rfl, rfl⟩

theorem prevHashResult_ok {st : Blockchain} {prev : Option String}
    (hlen : 0 < st.chain.length) (hh : st.height = (st.chain.length : Int))
    (h : prevHashResult st = .ok prev) :
    ∃ last, st.chain.get? (st.chain.length - 1) = some last ∧ prev = some last.hash := by
  rw [prevHashResult] at h
  have hne : st.height ≠ -1 := by omega
  rw [if_pos hne] at h
  have hidx : getAtInt st.chain (st.height - 1)
      = st.chain.get? (st.chain.length - 1) := by
    rw [getAtInt, if_neg (by omega : ¬ st.height - 1 < 0)]
    congr 1
    omega
  rw [hidx] at h
  cases hget : st.chain.get? (st.chain.length - 1) with
  | none =>
    rw [hget] at h
    simp at h
  | some last =>
    rw [hget] at h
    dsimp only at h
    by_cases hhash : last.hash = ""
    · rw [if_pos hhash] at h; simp at h
    · rw [if_neg hhash] at h
      simp only [Except.ok.injEq] at h
      exact ⟨last, rfl, h.symm⟩

theorem addBlock_height_mono (digest : HashInput → String) (st : Blockchain)
    (body : String) (nowMs : Nat) :
    st.height ≤ (_addBlock digest st body nowMs).2.height := by
  cases hr : _addBlock digest st body nowMs with
  | mk r st' =>
    show st.height ≤ st'.height
    cases r with
    | error e =>
      have h2 : (_addBlock digest st body nowMs).2 = st :=
        addBlock_error_state (by rw [hr])
      rw [hr] at h2
      have hst : st' = st := h2
      rw [hst]
    | ok b =>
      obtain ⟨_, ⟨prev, hpr, _⟩, _, _, _, _, _, hht⟩ := addBlock_ok_state hr
      rw [hht]
      rw [prevHashResult] at hpr
      by_cases hne : st.height ≠ -1
      · rw [if_pos hne] at hpr
        cases hget : getAtInt st.chain (st.height - 1) with
        | none => rw [hget] at hpr; simp at hpr
        | some pb =>
          rw [getAtInt] at hget
          by_cases hneg : st.height - 1 < 0
          · rw [if_pos hneg] at hget; simp at hget
          · rw [if_neg hneg] at hget
            have hlt : (st.height - 1).toNat < st.chain.length :=
              List.get?_eq_some.mp hget |>.1
            omega
      · have : st.height = -1 := by omega
        omega

theorem chainInv_addBlock {digest : HashInput → String} {st st' : Blockchain}
    {body : String} {nowMs : Nat} {b : Block}
    (hinv : ChainInv st) (h : _addBlock digest st body nowMs = (.ok b, st')) :
    ChainInv st' := by
  obtain ⟨hlen, hh, hpos, hgen, hlink⟩ := hinv
  obtain ⟨_, ⟨prev, hpr, hbprev⟩, hbh, _, _, _, hchain, hht⟩ := addBlock_ok_state h
  obtain ⟨last, hlast, hprev⟩ := prevHashResult_ok hlen hh hpr
  have hget_lt : ∀ i, i < st.chain.length → st'.chain.get? i = st.chain.get? i := by
    intro i hi
    rw [hchain]
    exact List.get?_append hi
  have hget_new : st'.chain.get? st.chain.length = some b := by
    rw [hchain]
    exact List.get?_concat_length st.chain b
  have hlen' : st'.chain.length = st.chain.length + 1 := by
    rw [hchain]; simp
  refine ⟨by omega, by rw [hht, hlen']; omega, ?_, ?_, ?_⟩
  · intro i bi hbi
    by_cases hi : i < st.chain.length
    · exact hpos i bi (by rw [← hget_lt i hi]; exact hbi)
    · have hile : i ≤ st.chain.length := by
        by_contra hgt
        have : st'.chain.length ≤ i := by omega
        rw [List.get?_len_le this] at hbi
        exact Option.noConfusion hbi
      have hieq : i = st.chain.length := by omega
      subst hieq
      rw [hget_new] at hbi
      cases hbi
      exact hbh
  · intro b0 hb0
    exact hgen b0 (by rw [← hget_lt 0 hlen]; exact hb0)
  · intro i bi bj hbi hbj
    by_cases hj : i + 1 < st.chain.length
    · exact hlink i bi bj
        (by rw [← hget_lt i (by omega)]; exact hbi)
        (by rw [← hget_lt (i + 1) hj]; exact hbj)
    · have hile : i + 1 ≤ st.chain.length := by
        by_contra hgt
        have : st'.chain.length ≤ i + 1 := by omega
        rw [List.get?_len_le this] at hbj
        exact Option.noConfusion hbj
      have hieq : i + 1 = st.chain.length := by omega
      have hbi' : st.chain.get? i = some bi := by
        rw [← hget_lt i (by omega)]; exact hbi
      have hbj' : bj = b := by
        rw [hieq, hget_new] at hbj
        cases hbj
        rfl
      subst hbj'
      rw [hbprev, hprev]
      have : st.chain.get? (st.chain.length - 1) = st.chain.get? i := by
        congr 1
        omega
      rw [this, hbi'] at hlast
      cases hlast
      rfl

/-- The genesis block produced by `initializeChain`. -/
def genesisBlock (digest : HashInput → String) (nowMs : Nat) : Block :=
  ⟨0, jsSliceNeg3 (jsToString nowMs), none, genesisBody,
    digest ⟨0, jsSliceNeg3 (jsToString nowMs), none, genesisBody⟩⟩

theorem mkBlockchain_eq (digest : HashInput → String) (nowMs : Nat) :
    mkBlockchain digest nowMs = ⟨[genesisBlock digest nowMs], 1⟩ := rfl

theorem chainInv_mk (digest : HashInput → String) (nowMs : Nat) :
    ChainInv (mkBlockchain digest nowMs) := by
  rw [mkBlockchain_eq]
  refine ⟨by simp, by simp, ?_, ?_, ?_⟩
  · intro i b hbi
    cases i with
    | zero => cases hbi; rfl
    | succ j => simp at hbi
  · intro b hb
    cases hb
    rfl
  · intro i b b' hbi hbj
    cases i with
    | zero => simp at hbj
    | succ j => simp at hbj

theorem submitStar_elapsed {message : String} {nowMs : Nat}
    (digest : HashInput → String) (verify : String → String → String → Bool)
    (st : Blockchain) (address signature star : String)
    (h : elapsedMoreThan5Min message nowMs = true) :
    submitStar digest verify st address message signature star nowMs
      = (.error .elapsedTime, st) := by
  rw [submitStar, if_pos h]

theorem submitStar_sigfail {verify : String → String → String → Bool}
    {address message signature : String} {nowMs : Nat}
    (digest : HashInput → String) (st : Blockchain) (star : String)
    (h1 : elapsedMoreThan5Min message nowMs = false)
    (h2 : verify message address signature = false) :
    submitStar digest verify st address message signature star nowMs
      = (.error .signatureInvalid, st) := by
  rw [submitStar, if_neg (by simp [h1]), if_pos (by simp [h2])]

theorem submitStar_pass {verify : String → String → String → Bool}
    {address message signature : String} {nowMs : Nat}
    (digest : HashInput → String) (st : Blockchain) (star : String)
    (h1 : elapsedMoreThan5Min message nowMs = false)
    (h2 : verify message address signature = true) :
    submitStar digest verify st address message signature star nowMs
      = _addBlock digest st (starBody address star) nowMs := by
  rw [submitStar, if_neg (by simp [h1]), if_neg (by simp [h2])]

theorem reachable_inv {digest : HashInput → String} {st : Blockchain}
    (h : Reachable digest st) : ChainInv st := by
  induction h with
  | init nowMs => exact chainInv_mk digest nowMs
  | submit st verify address message signature star nowMs hst ih =>
    by_cases h1 : elapsedMoreThan5Min message nowMs
    · rw [submitStar_elapsed digest verify st address signature star h1]
      exact ih
    · have h1' : elapsedMoreThan5Min message nowMs = false := by
        revert h1; cases elapsedMoreThan5Min message nowMs <;> simp
      by_cases h2 : verify message address signature
      · rw [submitStar_pass digest st star h1' h2]
        cases hr : _addBlock digest st (starBody address star) nowMs with
        | mk r st' =>
          show ChainInv st'
          cases r with
          | error e =>
            have he : (_addBlock digest st (starBody address star) nowMs).2 = st :=
              addBlock_error_state (by rw [hr])
            rw [hr] at he
            have hst' : st' = st := he
            rw [hst']
            exact ih
          | ok b => exact chainInv_addBlock ih hr
      · have h2' : verify message address signature = false := by
          revert h2; cases verify message address signature <;> simp
        rw [submitStar_sigfail digest st star h1' h2']
        exact ih

theorem submitStar_height_mono (digest : HashInput → String)
    (verify : String → String → String → Bool) (st : Blockchain)
    (address message signature star : String) (nowMs : Nat) :
    st.height ≤ (submitStar digest verify st address message signature star nowMs).2.height := by
  by_cases h1 : elapsedMoreThan5Min message nowMs
  · rw [submitStar_elapsed digest verify st address signature star h1]
  · have h1' : elapsedMoreThan5Min message nowMs = false := by
      revert h1; cases elapsedMoreThan5Min message nowMs <;> simp
    by_cases h2 : verify message address signature
    · rw [submitStar_pass digest st star h1' h2]
      exact addBlock_height_mono digest st (starBody address star) nowMs
    · have h2' : verify message address signature = false := by
        revert h2; cases verify message address signature <;> simp
      rw [submitStar_sigfail digest st star h1' h2']

deriving instance DecidableEq for Except

theorem validateFrom_cons (digest : HashInput → String) (p : Option String)
    (b : Block) (rest : List Block) :
    validateFrom digest p (b :: rest)
      = (if digest (hashInputOf b) ≠ b.hash then [tamperMsg b.hash] else []) ++
          ((if b.previousBlockHash ≠ p then [linkMsg b.hash] else []) ++
            validateFrom digest (some b.hash) rest) := rfl

theorem validateFrom_cons_eq_nil {digest : HashInput → String} {p : Option String}
    {b : Block} {rest : List Block}
    (h : validateFrom digest p (b :: rest) = []) :
    digest (hashInputOf b) = b.hash ∧ b.previousBlockHash = p ∧
      validateFrom digest (some b.hash) rest = [] := by
  rw [validateFrom_cons] at h
  rw [List.append_eq_nil] at h
  obtain ⟨h1, h2⟩ := h
  rw [List.append_eq_nil] at h2
  obtain ⟨h2, h3⟩ := h2
  refine ⟨?_, ?_, h3⟩
  · by_contra hne
    rw [if_pos hne] at h1
    exact List.noConfusion h1
  · by_contra hne
    rw [if_pos hne] at h2
    exact List.noConfusion h2

theorem validateFrom_set_tamper (digest : HashInput → String) :
    ∀ (c : List Block) (p : Option String) (i : Nat) (bOld : Block) (newBody : String),
      validateFrom digest p c = [] →
      c.get? i = some bOld →
      digest ⟨bOld.height, bOld.time, bOld.previousBlockHash, newBody⟩ ≠ bOld.hash →
      validateFrom digest p
          (c.set i ⟨bOld.height, bOld.time, bOld.previousBlockHash, newBody, bOld.hash⟩)
        = [tamperMsg bOld.hash] := by
  intro c
  induction c with
  | nil =>
    intro p i bOld newBody _ hold _
    simp at hold
  | cons b rest ih =>
    intro p i bOld newBody hvalid hold hneq
    obtain ⟨hb, hp, hrest⟩ := validateFrom_cons_eq_nil hvalid
    cases i with
    | zero =>
      have hbeq : b = bOld := by
        have : some b = some bOld := hold
        cases this
        rfl
      subst hbeq
      show validateFrom digest p
          (⟨b.height, b.time, b.previousBlockHash, newBody, b.hash⟩ :: rest)
        = [tamperMsg b.hash]
      rw [validateFrom_cons]
      rw [if_pos (by exact hneq)]
      rw [if_neg (by rw [hp]; exact fun hcon => hcon rfl)]
      show tamperMsg b.hash :: validateFrom digest (some b.hash) rest = [tamperMsg b.hash]
      rw [hrest]
    | succ j =>
      have hold' : rest.get? j = some bOld := hold
      show validateFrom digest p
          (b :: rest.set j ⟨bOld.height, bOld.time, bOld.previousBlockHash, newBody, bOld.hash⟩)
        = [tamperMsg bOld.hash]
      rw [validateFrom_cons]
      rw [if_neg (fun hcon => hcon hb)]
      rw [if_neg (by rw [hp]; exact fun hcon => hcon rfl)]
      rw [ih (some b.hash) j bOld newBody hrest hold' hneq]
      rfl

theorem prevHashResult_error {st : Blockchain} {e : LedgerError}
    (h : prevHashResult st = .error e) : e = .missingPrevHash := by
  rw [prevHashResult] at h
  by_cases hne : st.height ≠ -1
  · rw [if_pos hne] at h
    cases hget : getAtInt st.chain (st.height - 1) with
    | none =>
      rw [hget] at h
      simp only [Except.error.injEq] at h
      exact h.symm
    | some pb =>
      rw [hget] at h
      dsimp only at h
      by_cases hhash : pb.hash = ""
      · rw [if_pos hhash] at h
        simp only [Except.error.injEq] at h
        exact h.symm
      · rw [if_neg hhash] at h
        exact Except.noConfusion h
  · rw [if_neg hne] at h
    exact Except.noConfusion h

theorem addBlock_error_cases {digest : HashInput → String} {st : Blockchain}
    {body : String} {nowMs : Nat} {e : LedgerError}
    (h : (_addBlock digest st body nowMs).1 = .error e) :
    e = .chainCorrupt ∨ e = .missingPrevHash := by
  rw [_addBlock] at h
  by_cases hv : (validateChain digest st).length ≠ 0
  · rw [if_pos hv] at h
    simp only [Except.error.injEq] at h
    left
    exact h.symm
  · rw [if_neg hv] at h
    cases hpr : prevHashResult st with
    | error e' =>
      rw [hpr] at h
      have he : e' = e := by
        simp only [Except.error.injEq] at h
        exact h
      right
      rw [← he]
      exact prevHashResult_error hpr
    | ok prev =>
      rw [hpr] at h
      simp at h

/-- A concrete executable digest used only by the concrete witness states:
it encodes the body and the height, so different bodies give different
digests at the evaluated points. -/
def digW : HashInput → String := fun i => i.body ++ "#" ++ jsToString i.height

/-- External verifier that accepts everything (one possible behaviour of
`bitcoinMessage.verify`). -/
def verifyT : String → String → String → Bool := fun _ _ _ => true

/-- External verifier that rejects everything. -/
def verifyF : String → String → String → Bool := fun _ _ _ => false

/-- Freshly constructed ledger used by the witnesses. -/
def stW : Blockchain := mkBlockchain digW 5000

/-- Ledger after one successful `submitStar` on top of `stW`. -/
def stW2 : Blockchain :=
  (submitStar digW verifyT stW "addr" "a:5:starRegistry" "sig" "star" 6000).2

/-- A corrupt one-block state: the stored hash does not match the digest. -/
def corruptState : Blockchain :=
  ⟨[⟨0, "5", none, "Genesis Block", "bad"⟩], 1⟩

theorem find?_height_eq (c : List Block) :
    ∀ (k n : Nat), (∀ i b, c.get? i = some b → b.height = k + i) → n < c.length →
      c.find? (fun b => (b.height : Int) == ((k + n : Nat) : Int)) = c.get? n := by
  induction c with
  | nil =>
    intro k n _ hn
    simp at hn
  | cons b rest ih =>
    intro k n hh hn
    have hb : b.height = k := by
      have := hh 0 b rfl
      omega
    rw [List.find?_cons]
    cases n with
    | zero =>
      have htrue : ((b.height : Int) == ((k + 0 : Nat) : Int)) = true := by
        rw [hb]
        simp
      rw [htrue]
      rfl
    | succ m =>
      have hfalse : ((b.height : Int) == ((k + (m + 1) : Nat) : Int)) = false := by
        rw [hb]
        simp only [beq_eq_false_iff_ne, ne_eq]
        omega
      rw [hfalse]
      have hh' : ∀ i b', rest.get? i = some b' → b'.height = (k + 1) + i := by
        intro i b' hi
        have := hh (i + 1) b' hi
        omega
      have harg : k + (m + 1) = (k + 1) + m := by omega
      rw [harg]
      exact ih (k + 1) m hh' (by simpa using hn)

/-- C1: every failure of `_addBlock` — in particular a pre-append
validation report with at least one violation, which fails with the
chain-corrupt error — leaves the chain array and the height counter
exactly as they were before the call. -/
theorem addBlock_failure_atomic (digest : HashInput → String) (st : Blockchain)
    (body : String) (nowMs : Nat) :
    (validateChain digest st ≠ [] →
      _addBlock digest st body nowMs = (.error .chainCorrupt, st)) ∧
    (∀ e, (_addBlock digest st body nowMs).1 = .error e →
      (_addBlock digest st body nowMs).2 = st) :=
  ⟨fun h => addBlock_of_invalid body nowMs h, fun _ h => addBlock_error_state h⟩

theorem addBlock_failure_atomic_witness :
    validateChain digW corruptState ≠ [] ∧
    _addBlock digW corruptState "x" 5000 = (.error .chainCorrupt, corruptState) :=
  ⟨by decide, (addBlock_failure_atomic digW corruptState "x" 5000).1 (by decide)⟩

/-- C4: in every reachable state the genesis block carries the `none`
sentinel, every later block links to the hash of its predecessor, the
height counter equals the chain length, and no operation ever decreases
the height counter. -/
theorem reachable_chain_invariants (digest : HashInput → String) (st : Blockchain)
    (h : Reachable digest st) :
    (∀ b, st.chain.get? 0 = some b → b.previousBlockHash = none) ∧
    (∀ i b b', st.chain.get? i = some b → st.chain.get? (i + 1) = some b' →
      b'.previousBlockHash = some b.hash) ∧
    st.height = (st.chain.length : Int) ∧
    (∀ verify address message signature star nowMs,
      st.height ≤ (submitStar digest verify st address message signature star nowMs).2.height) := by
  obtain ⟨_, h2, _, h4, h5⟩ := reachable_inv h
  exact ⟨h4, h5, h2, fun verify address message signature star nowMs =>
    submitStar_height_mono digest verify st address message signature star nowMs⟩

theorem reachable_chain_invariants_witness :
    stW.height = (stW.chain.length : Int) :=
  (reachable_chain_invariants digW stW (Reachable.init 5000)).2.2.1

/-- C5: when `_addBlock` succeeds (from a state satisfying the height
invariant, or from the pre-genesis constructor state), the height counter
becomes the old length plus one (so it grows by exactly one whenever the
height invariant held), and the returned block is the one appended, with
height equal to the old chain length, the given body, and the previous
hash of the old last block (`none` sentinel in the genesis case). -/
theorem addBlock_success_spec (digest : HashInput → String) {st st' : Blockchain}
    {body : String} {nowMs : Nat} {b : Block}
    (hinv : st.height = (st.chain.length : Int) ∨ st = emptyState)
    (hs : _addBlock digest st body nowMs = (.ok b, st')) :
    st'.chain = st.chain ++ [b] ∧
    st'.height = (st.chain.length : Int) + 1 ∧
    (st.height = (st.chain.length : Int) → st'.height = st.height + 1) ∧
    b.height = st.chain.length ∧
    b.body = body ∧
    b.previousBlockHash = st.chain.getLast?.map (fun pb => pb.hash) := by
  obtain ⟨hval, ⟨prev, hpr, hbprev⟩, hbh, _, hbbody, _, hchain, hht⟩ := addBlock_ok_state hs
  refine ⟨hchain, hht, fun hh => by rw [hht, hh], hbh, hbbody, ?_⟩
  rcases hinv with hh | hempty
  · by_cases hlen : 0 < st.chain.length
    · obtain ⟨last, hlast, hprev⟩ := prevHashResult_ok hlen hh hpr
      rw [hbprev, hprev, List.getLast?_eq_get?, hlast]
      rfl
    · exfalso
      rw [prevHashResult] at hpr
      have hlen0 : st.chain.length = 0 := by omega
      have hne : st.height ≠ -1 := by
        rw [hh]
        omega
      rw [if_pos hne] at hpr
      have hnone : getAtInt st.chain (st.height - 1) = none := by
        rw [getAtInt]
        by_cases hneg : st.height - 1 < 0
        · rw [if_pos hneg]
        · rw [if_neg hneg]
          apply List.get?_len_le
          omega
      rw [hnone] at hpr
      exact Except.noConfusion hpr
  · subst hempty
    rw [prevHashResult] at hpr
    rw [if_neg (by decide)] at hpr
    simp only [Except.ok.injEq] at hpr
    rw [hbprev, ← hpr]
    rfl

theorem addBlock_success_spec_witness :
    (_addBlock digW stW "payload" 7000).2.chain
        = stW.chain ++ [⟨1, "7", some "Genesis Block#0", "payload", "payload#1"⟩] ∧
    (_addBlock digW stW "payload" 7000).2.height = stW.height + 1 :=
  have hs : _addBlock digW stW "payload" 7000
      = (.ok ⟨1, "7", some "Genesis Block#0", "payload", "payload#1"⟩,
        ⟨stW.chain ++ [⟨1, "7", some "Genesis Block#0", "payload", "payload#1"⟩], 2⟩) := by
    decide
  have h := addBlock_success_spec digW (Or.inl (by decide)) hs
  ⟨h.1, h.2.2.1 (by decide)⟩

/-- C10: in every reachable state each stored block sits at the index
equal to its own `height` field, and `getBlockByHeight n` for `n` below
the chain length returns exactly the block stored at index `n`. -/
theorem height_index_lookup (digest : HashInput → String) (st : Blockchain)
    (h : Reachable digest st) :
    (∀ i b, st.chain.get? i = some b → b.height = i) ∧
    (∀ n : Nat, n < st.chain.length → getBlockByHeight st (n : Int) = st.chain.get? n) := by
  obtain ⟨_, _, hpos, _, _⟩ := reachable_inv h
  refine ⟨hpos, ?_⟩
  intro n hn
  have hk : ∀ i b, st.chain.get? i = some b → b.height = 0 + i := by
    intro i b hib
    have := hpos i b hib
    omega
  have hfind := find?_height_eq st.chain 0 n hk hn
  rw [Nat.zero_add] at hfind
  exact hfind

theorem height_index_lookup_witness :
    getBlockByHeight stW2 (1 : Int) = stW2.chain.get? 1 :=
  (height_index_lookup digW stW2
      (Reachable.submit stW verifyT "addr" "a:5:starRegistry" "sig" "star" 6000
        (Reachable.init 5000))).2 1 (by decide)

/-- C8: `getBlockByHash` signals a not-found error when no stored block
carries the requested hash, while `getBlockByHeight` returns the
non-error absent value for every height at or above the height counter —
the two lookups report a miss asymmetrically. -/
theorem lookup_miss_asymmetry (digest : HashInput → String) (st : Blockchain)
    (hr : Reachable digest st) :
    (∀ h : String, (∀ b ∈ st.chain, b.hash ≠ h) →
      getBlockByHash st h = .error (.notFound h)) ∧
    (∀ n : Int, st.height ≤ n → getBlockByHeight st n = none) := by
  constructor
  · intro h hmiss
    have hfind : st.chain.find? (fun b => b.hash == h) = none := by
      rw [List.find?_eq_none]
      intro b hb
      simp [hmiss b hb]
    rw [getBlockByHash, hfind]
  · intro n hn
    obtain ⟨hlen, hh, hpos, _, _⟩ := reachable_inv hr
    rw [getBlockByHeight, List.find?_eq_none]
    intro b hb
    rw [List.mem_iff_get] at hb
    obtain ⟨⟨i, hilt⟩, hgi⟩ := hb
    have hq : st.chain.get? i = some b := by
      rw [List.get?_eq_get hilt, hgi]
    have hbh : b.height = i := hpos i b hq
    simp only [beq_iff_eq, ne_eq]
    intro heq
    omega

theorem lookup_miss_asymmetry_witness :
    getBlockByHash stW "zzz" = .error (.notFound "zzz") ∧
    getBlockByHeight stW 1 = none :=
  ⟨(lookup_miss_asymmetry digW stW (Reachable.init 5000)).1 "zzz" (by decide),
   (lookup_miss_asymmetry digW stW (Reachable.init 5000)).2 1 (by decide)⟩

/-- C6: on an otherwise-valid chain where exactly one stored block has its
body replaced without recomputing the stored hash (and the digest of the
altered content differs from that hash), the full validation pass reports
exactly one violation: the tamper message naming the mutated block's
stored hash.  The equality of the whole report shows the scan ran over
the entire chain in one pass without stopping early. -/
theorem validateChain_single_tamper (digest : HashInput → String)
    (st : Blockchain) (i : Nat) (bOld : Block) (newBody : String)
    (hvalid : validateChain digest st = [])
    (hold : st.chain.get? i = some bOld)
    (hneq : digest ⟨bOld.height, bOld.time, bOld.previousBlockHash, newBody⟩ ≠ bOld.hash) :
    validateChain digest
        ⟨st.chain.set i ⟨bOld.height, bOld.time, bOld.previousBlockHash, newBody, bOld.hash⟩,
          st.height⟩
      = [tamperMsg bOld.hash] :=
  validateFrom_set_tamper digest st.chain none i bOld newBody hvalid hold hneq

theorem validateChain_single_tamper_witness :
    validateChain digW stW2 = [] ∧
    stW2.chain.get? 0 = some ⟨0, "5", none, "Genesis Block", "Genesis Block#0"⟩ ∧
    validateChain digW
        ⟨stW2.chain.set 0 ⟨0, "5", none, "EVIL", "Genesis Block#0"⟩, stW2.height⟩
      = [tamperMsg "Genesis Block#0"] :=
  ⟨by decide, by decide,
    validateChain_single_tamper digW stW2 0
      ⟨0, "5", none, "Genesis Block", "Genesis Block#0"⟩ "EVIL"
      (by decide) (by decide) (by decide)⟩

/-- C7: with a parseable embedded timestamp, an elapsed time above 300
seconds makes `submitStar` fail with the elapsed-time error no matter how
the signature verifier behaves, while an elapsed time of at most 300
seconds — including a negative one, from a timestamp in the future —
never produces the elapsed-time error (only the upper bound is
enforced). -/
theorem submitStar_elapsed_guard (digest : HashInput → String)
    (st : Blockchain) (address message signature star : String)
    (nowMs : Nat) (t : Int)
    (hms : 1000 ≤ nowMs)
    (hmt : parseMessageTime message = some t) :
    (((nowMs / 1000 : Nat) : Int) - t > 300 →
      ∀ verify, submitStar digest verify st address message signature star nowMs
        = (.error .elapsedTime, st)) ∧
    (((nowMs / 1000 : Nat) : Int) - t ≤ 300 →
      ∀ verify, (submitStar digest verify st address message signature star nowMs).1
        ≠ .error .elapsedTime) := by
  have h300 : fiveMinutes = 300 := by decide
  have hguard : elapsedMoreThan5Min message nowMs
      = decide (fiveMinutes < ((nowMs / 1000 : Nat) : Int) - t) := by
    rw [elapsedMoreThan5Min, currentTime_eq hms, hmt]
  constructor
  · intro hgt verify
    apply submitStar_elapsed
    rw [hguard]
    apply decide_eq_true
    rw [h300]
    omega
  · intro hle verify
    have hguardf : elapsedMoreThan5Min message nowMs = false := by
      rw [hguard]
      apply decide_eq_false
      rw [h300]
      omega
    by_cases hv : verify message address signature
    · rw [submitStar_pass digest st star hguardf hv]
      intro hcon
      rcases addBlock_error_cases hcon with h | h <;> exact absurd h (by decide)
    · have hv' : verify message address signature = false := by
        revert hv
        cases verify message address signature <;> simp
      rw [submitStar_sigfail digest st star hguardf hv']
      intro hcon
      simp at hcon

theorem submitStar_elapsed_guard_witness :
    parseMessageTime "a:100:starRegistry" = some 100 ∧
    submitStar digW verifyT stW "addr" "a:100:starRegistry" "sig" "star" 500000
      = (.error .elapsedTime, stW) :=
  ⟨by decide,
    (submitStar_elapsed_guard digW stW "addr" "a:100:starRegistry" "sig" "star"
      500000 100 (by decide) (by decide)).1 (by decide) verifyT⟩

/-- C9: the challenge string is exactly the address, the current Unix time
in whole seconds, and the fixed domain tag, joined by colons (for any
clock reading of at least one second past the epoch, which every real
call satisfies). -/
theorem requestMessage_format (address : String) {nowMs : Nat} (h : 1000 ≤ nowMs) :
    requestMessageOwnershipVerification address nowMs
      = address ++ ":" ++ jsToString (nowMs / 1000) ++ ":starRegistry" := by
  rw [requestMessageOwnershipVerification, jsSliceNeg3_jsToString h]

theorem requestMessage_format_witness :
    requestMessageOwnershipVerification "addr" 5123 = "addr:5:starRegistry" := by
  rw [requestMessage_format "addr" (by decide : (1000 : Nat) ≤ 5123)]
  decide

/-- C2 counterexample: a challenge with no parseable embedded timestamp
does not fail with the malformed-challenge error; `parseInt` yields `NaN`,
the `NaN > 300` comparison is false, and the call proceeds straight to
signature verification (here failing with the signature error instead). -/
theorem submitStar_no_malformed_error_cex :
    parseMessageTime "nocolonmessage" = none ∧
    submitStar digW verifyF stW "addr" "nocolonmessage" "sig" "star" 6000
      = (.error .signatureInvalid, stW) := by decide

/-- C2 amended: when the embedded timestamp is absent or unparseable the
elapsed-time guard silently passes (`NaN` comparisons are false) and the
outcome is decided entirely by signature verification — no
malformed-challenge failure exists on this path. -/
theorem submitStar_unparseable_timestamp (digest : HashInput → String)
    (verify : String → String → String → Bool) (st : Blockchain)
    (address message signature star : String) (nowMs : Nat)
    (hmt : parseMessageTime message = none) :
    submitStar digest verify st address message signature star nowMs
      = (if verify message address signature
          then _addBlock digest st (starBody address star) nowMs
          else (.error .signatureInvalid, st)) := by
  have hguard : elapsedMoreThan5Min message nowMs = false := by
    rw [elapsedMoreThan5Min, hmt]
    cases jsParseInt (some (jsSliceNeg3 (jsToString nowMs))) <;> rfl
  by_cases hv : verify message address signature
  · rw [submitStar_pass digest st star hguard hv, if_pos hv]
  · have hv' : verify message address signature = false := by
      revert hv
      cases verify message address signature <;> simp
    rw [submitStar_sigfail digest st star hguard hv', if_neg hv]

theorem submitStar_unparseable_timestamp_witness :
    parseMessageTime "nocolonmessage" = none ∧
    submitStar digW verifyT stW "addr" "nocolonmessage" "sig" "star" 6000
      = (if verifyT "nocolonmessage" "addr" "sig"
          then _addBlock digW stW (starBody "addr" "star") 6000
          else (.error .signatureInvalid, stW)) :=
  ⟨by decide,
    submitStar_unparseable_timestamp digW verifyT stW "addr" "nocolonmessage"
      "sig" "star" 6000 (by decide)⟩

/-- C3 counterexample: with an invalid signature and an expired challenge
(elapsed 400 s) the call fails with the elapsed-time error, not the
signature error — the signature failure is not reported regardless of
elapsed time. -/
theorem signature_error_not_unconditional_cex :
    verifyF "a:100:starRegistry" "addr" "sig" = false ∧
    submitStar digW verifyF stW "addr" "a:100:starRegistry" "sig" "star" 500000
      = (.error .elapsedTime, stW) := by decide

/-- C3 amended: when the signature does not verify, `submitStar` fails
with the signature error provided the elapsed-time guard (which runs
first) does not fire; when the challenge has also expired, the
elapsed-time error wins. -/
theorem submitStar_signature_invalid_guarded (digest : HashInput → String)
    (verify : String → String → String → Bool) (st : Blockchain)
    (address message signature star : String) (nowMs : Nat)
    (hguard : elapsedMoreThan5Min message nowMs = false)
    (hv : verify message address signature = false) :
    submitStar digest verify st address message signature star nowMs
      = (.error .signatureInvalid, st) :=
  submitStar_sigfail digest st star hguard hv

theorem submitStar_signature_invalid_guarded_witness :
    elapsedMoreThan5Min "a:100:starRegistry" 200000 = false ∧
    submitStar digW verifyF stW "addr" "a:100:starRegistry" "sig" "star" 200000
      = (.error .signatureInvalid, stW) :=
  ⟨by decide,
    submitStar_signature_invalid_guarded digW verifyF stW "addr"
      "a:100:starRegistry" "sig" "star" 200000 (by decide) (by decide)⟩
